import Mathlib

/-!
Verification of the point-in-time (PIT) fundamentals core and of the
dashboard pipeline state machine of the Pg19g/ML repository.

The PIT core (effective-date resolution, period filtering, snapshot store,
panel builder, integrity validator) is shipped in this repository only
through its design documents; the definitions below are therefore modelled
from the specification and settle the claims against that model.  The
dashboard pipeline state machine is embedded from the React sources
(pages/DashboardPage.tsx and components/PipelineRunner.tsx).
-/

namespace PIT

/-- Modelled from the spec: calendar dates are proleptic-Gregorian rata-die
day numbers (day 1 is 0001-01-01, a Monday), standing in for the date
arithmetic of the missing src/pit_snapshots.py. -/
def isLeapYear (y : Nat) : Bool :=
  (decide (y % 4 = 0) && decide (y % 100 ≠ 0)) || decide (y % 400 = 0)

/-- Cumulative day count before month m (1 = January) in a non-leap year,
plus the leap-day correction. -/
def daysBeforeMonth (m : Nat) (leap : Bool) : Nat :=
  (match m with
   | 1 => 0 | 2 => 31 | 3 => 59 | 4 => 90 | 5 => 120 | 6 => 151
   | 7 => 181 | 8 => 212 | 9 => 243 | 10 => 273 | 11 => 304 | _ => 334)
  + (if leap && decide (m > 2) then 1 else 0)

/-- Rata-die day number of a proleptic-Gregorian calendar date. -/
def toRataDie (y m d : Nat) : Nat :=
  365 * (y - 1) + (y - 1) / 4 - (y - 1) / 100 + (y - 1) / 400
    + daysBeforeMonth m (isLeapYear y) + d

/-- Modelled from the spec: a weekday (Monday through Friday) trading-day
test; day 1 of the rata-die scale is a Monday, so the residue mod 7
determines the weekday. -/
def isTradingDay (d : Nat) : Bool :=
  decide (d % 7 = 1) || decide (d % 7 = 2) || decide (d % 7 = 3)
    || decide (d % 7 = 4) || decide (d % 7 = 5)

/-- Nearest valid business day at or after the given day.  Among any three
consecutive days at least one is a weekday, so two probes suffice. -/
def toBusinessDay (d : Nat) : Nat :=
  if isTradingDay d then d else if isTradingDay (d + 1) then d + 1 else d + 2

/-- Add a number of trading (business) days, skipping weekends. -/
def addTradingDays (d : Nat) : Nat → Nat
  | 0 => d
  | n + 1 => addTradingDays (toBusinessDay (d + 1)) n

/-- Statement kinds recognised by the PIT core. -/
inductive StatementKind where
  | quarterly
  | annual
  | ttm
deriving DecidableEq

/-- Modelled from the spec: one reported accounting period for one symbol,
as consumed by the missing src/pit_snapshots.py and
src/ingest/fundamentals_on_demand.py.  reported_date is the authoritative
reported-to-market (vendor filing/publication) date when available, and
payload_updated_at is the vendor payload-last-updated timestamp. -/
structure StatementPeriod where
  symbol : String
  statement_kind : StatementKind
  period_end : Option Nat
  reported_date : Option Nat
  payload_updated_at : Option Nat
  fields : List (String × Int)
deriving DecidableEq

/-- Effective-date sources, in the order of the default priority list. -/
inductive Source where
  | reported_date
  | payload_updated_at
  | period_end_plus_lag
deriving DecidableEq

/-- Modelled from the spec: configuration of the effective-date resolver
(lag table per statement kind, unconditional trading-day safety buffer,
ordered source priority list, coverage threshold). -/
structure PITConfig where
  lag_by_kind : StatementKind → Nat
  safety_buffer_trading_days : Nat
  source_priority : List Source
  min_periods_required : Nat

/-- Error kinds of the resolver. -/
inductive ResolveError where
  | ConfigurationError
  | InsufficientMetadataError
deriving DecidableEq

/-- A resolved effective date together with its provenance. -/
structure ResolvedDate where
  effective_date : Nat
  source : Source
deriving DecidableEq

/-- Date produced by one source for one period, when that source applies. -/
def applySource (cfg : PITConfig) (p : StatementPeriod) : Source → Option Nat
  | Source.reported_date => p.reported_date
  | Source.payload_updated_at => p.payload_updated_at
  | Source.period_end_plus_lag =>
      p.period_end.map (fun e => toBusinessDay (e + cfg.lag_by_kind p.statement_kind))

/-- First applicable source of a priority list, with the date it yields. -/
def firstApplicable (cfg : PITConfig) (p : StatementPeriod) :
    List Source → Option (Nat × Source)
  | [] => none
  | s :: rest =>
    match applySource cfg p s with
    | some d => some (d, s)
    | none => firstApplicable cfg p rest

/-- Modelled from the spec: the EffectiveDateResolver of the missing
src/pit_snapshots.py.  It applies the first applicable source in the
configured priority order, then unconditionally adds the trading-day
safety buffer, and records which source was used. -/
def resolve_effective_date (cfg : PITConfig) (p : StatementPeriod) :
    Except ResolveError ResolvedDate :=
  match cfg.source_priority with
  | [] => Except.error ResolveError.ConfigurationError
  | _ :: _ =>
    match firstApplicable cfg p cfg.source_priority with
    | some (d, s) =>
        Except.ok ⟨addTradingDays d cfg.safety_buffer_trading_days, s⟩
    | none => Except.error ResolveError.InsufficientMetadataError

/-- Modelled from the spec: the publication date a period carries into the
filter — its own explicit reported/filing date when present, otherwise its
own resolved effective date; never data of a different period. -/
def resolvePublicationDate (cfg : PITConfig) (p : StatementPeriod) : Option Nat :=
  match p.reported_date with
  | some d => some d
  | none =>
    match resolve_effective_date cfg p with
    | Except.ok r => some r.effective_date
    | Except.error _ => none

/-- Sort key used to order periods by publication date (undatable periods
carry key 0; they are dropped by the filter regardless of position). -/
def pubKey (cfg : PITConfig) (p : StatementPeriod) : Nat :=
  (resolvePublicationDate cfg p).getD 0

/-- Insertion into a list sorted by a Nat key. -/
def insertByKey (key : StatementPeriod → Nat) (p : StatementPeriod) :
    List StatementPeriod → List StatementPeriod
  | [] => [p]
  | q :: rest =>
    if key p ≤ key q then p :: q :: rest else q :: insertByKey key p rest

/-- Insertion sort by a Nat key. -/
def sortByKey (key : StatementPeriod → Nat) :
    List StatementPeriod → List StatementPeriod
  | [] => []
  | p :: rest => insertByKey key p (sortByKey key rest)

/-- True when a period is publishable by the cutoff: its own publication
date resolves and is at or before the cutoff.  Undatable periods are
excluded (fail-closed). -/
def includedAtCutoff (cfg : PITConfig) (cutoff : Nat) (p : StatementPeriod) : Bool :=
  match resolvePublicationDate cfg p with
  | some d => decide (d ≤ cutoff)
  | none => false

/-- Modelled from the spec: the PeriodFilter filter_to_cutoff of the
missing src/ingest/fundamentals_on_demand.py.  All periods are ordered by
publication date (never by period end) and exactly those publishable by
the cutoff are kept; the rest are entirely absent. -/
def filter_to_cutoff (cfg : PITConfig) (payload : List StatementPeriod)
    (cutoff : Nat) : List StatementPeriod :=
  (sortByKey (pubKey cfg) payload).filter (includedAtCutoff cfg cutoff)

/-- Modelled from the spec: an immutable persisted snapshot of the missing
src/pit_snapshots.py, keyed by (symbol, effective_date, statement_kind,
period_end), whose payload is the cumulative filtered set of periods
publishable by its effective date. -/
structure Snapshot where
  symbol : String
  effective_date : Nat
  statement_kind : StatementKind
  period_end : Nat
  payload : List StatementPeriod
deriving DecidableEq

/-- True when a stored snapshot carries exactly the given key. -/
def sameKey (s : Snapshot) (sym : String) (eff : Nat) (k : StatementKind)
    (pe : Nat) : Bool :=
  decide (s.symbol = sym) && decide (s.effective_date = eff)
    && decide (s.statement_kind = k) && decide (s.period_end = pe)

/-- Number of stored snapshots carrying the given key. -/
def countKey (store : List Snapshot) (sym : String) (eff : Nat)
    (k : StatementKind) (pe : Nat) : Nat :=
  (store.filter (fun s => sameKey s sym eff k pe)).length

/-- The triggering period of an append: the first period in the payload
with the requested statement kind and period end. -/
def findTriggering (payload : List StatementPeriod) (pe : Nat)
    (k : StatementKind) : Option StatementPeriod :=
  payload.find? (fun p =>
    decide (p.statement_kind = k) && decide (p.period_end = some pe))

/-- Modelled from the spec: append_snapshot of the missing
src/pit_snapshots.py.  It resolves the triggering period's effective date,
filters the full payload to that date, and persists the new snapshot
unless one with the same key already exists, in which case the call is a
no-op and never overwrites. -/
def append_snapshot (cfg : PITConfig) (store : List Snapshot) (sym : String)
    (full_payload : List StatementPeriod) (pe : Nat) (k : StatementKind) :
    Except ResolveError (List Snapshot) :=
  match findTriggering full_payload pe k with
  | none => Except.error ResolveError.InsufficientMetadataError
  | some p =>
    match resolve_effective_date cfg p with
    | Except.error e => Except.error e
    | Except.ok r =>
      if store.any (fun s => sameKey s sym r.effective_date k pe) then
        Except.ok store
      else
        Except.ok (store ++
          [⟨sym, r.effective_date, k, pe,
            filter_to_cutoff cfg full_payload r.effective_date⟩])

/-- Effective date the append key will carry, when it can be resolved. -/
def appendKeyEff (cfg : PITConfig) (full_payload : List StatementPeriod)
    (pe : Nat) (k : StatementKind) : Option Nat :=
  match findTriggering full_payload pe k with
  | none => none
  | some p =>
    match resolve_effective_date cfg p with
    | Except.ok r => some r.effective_date
    | Except.error _ => none

/-- Modelled from the spec: the cumulative materialization step of the
missing src/ingest/fundamentals_on_demand.py.  All periods of one fetched
payload are sorted by publication date and one snapshot is appended per
datable period, each filtered to its own effective date; undatable periods
are skipped, never fatal to the batch. -/
def materialize_snapshots (cfg : PITConfig) (sym : String)
    (full_payload : List StatementPeriod) : List Snapshot :=
  (sortByKey (pubKey cfg) full_payload).foldl (fun st p =>
    match p.period_end with
    | none => st
    | some pe =>
      match append_snapshot cfg st sym full_payload pe p.statement_kind with
      | Except.ok st' => st'
      | Except.error _ => st) []

/-- Snapshots stored for one symbol. -/
def snapshotsFor (store : List Snapshot) (sym : String) : List Snapshot :=
  store.filter (fun s => decide (s.symbol = sym))

/-- Of two snapshots valid on the same date, prefer the later effective
date, breaking ties by the more recent period end. -/
def chooseLater (a b : Snapshot) : Snapshot :=
  if a.effective_date < b.effective_date
      ∨ (a.effective_date = b.effective_date ∧ a.period_end ≤ b.period_end)
  then b else a

/-- Modelled from the spec: the snapshot selection of build_panel — the
latest snapshot whose effective date is at or before the observation date,
ties broken by the most recent period end. -/
def latestAsOf (snaps : List Snapshot) (d : Nat) : Option Snapshot :=
  match snaps.filter (fun s => decide (s.effective_date ≤ d)) with
  | [] => none
  | s :: rest => some (rest.foldl chooseLater s)

/-- A populated panel cell: the row for one symbol and one observation
date, attributed to the snapshot valid on that date. -/
structure PanelRow where
  symbol : String
  date : Nat
  snapshot_effective_date : Nat
  values : List StatementPeriod
deriving DecidableEq

/-- The inclusive date range of a panel. -/
def dateRange (a b : Nat) : List Nat :=
  (List.range (b + 1 - a)).map (fun i => a + i)

/-- Panel row built from a selected snapshot. -/
def mkRow (sym : String) (d : Nat) (s : Snapshot) : PanelRow :=
  ⟨sym, d, s.effective_date, s.payload⟩

/-- Populated rows of one symbol over a date range; dates with no snapshot
valid yet are left unpopulated (absent). -/
def symbolRows (store : List Snapshot) (sym : String) (a b : Nat) :
    List PanelRow :=
  (dateRange a b).filterMap (fun d =>
    (latestAsOf (snapshotsFor store sym) d).map (mkRow sym d))

/-- Modelled from the spec: build_panel of the missing
src/pit_snapshots.py — per symbol, per date, forward-fill from the latest
snapshot whose effective date is at or before the observation date. -/
def build_panel (store : List Snapshot) (symbols : List String) (a b : Nat) :
    List PanelRow :=
  symbols.foldr (fun sym acc => symbolRows store sym a b ++ acc) []

/-- Structured look-ahead violation raised by the validator. -/
structure LookAheadViolation where
  symbol : String
  date : Nat
  snapshot_effective_date : Nat
deriving DecidableEq

/-- True when a populated cell is attributed to a snapshot effective after
its own observation date. -/
def violates (r : PanelRow) : Bool :=
  decide (r.date < r.snapshot_effective_date)

/-- Modelled from the spec: validate_pit_integrity of the missing
src/pit_snapshots.py — fails on the first populated cell whose snapshot
effective date exceeds its observation date, identifying the offending
symbol, date and snapshot effective date. -/
def validate (panel : List PanelRow) : Except LookAheadViolation Unit :=
  match panel.find? violates with
  | some r => Except.error ⟨r.symbol, r.date, r.snapshot_effective_date⟩
  | none => Except.ok ()

/-- Modelled from the spec: a cell of the vendor-payload object graph, as
manipulated by the deep copy inside _filter_payload_to_filing_date of the
missing src/ingest/fundamentals_on_demand.py.  A cell is a number or an
array of addresses of other cells. -/
inductive HVal where
  | num (v : Int)
  | arr (elems : List Nat)
deriving DecidableEq

/-- A heap of cells; the address of a cell is its index, and allocation
appends at the end. -/
abbrev Heap := List HVal

/-- Addresses a cell refers to. -/
def HVal.refs : HVal → List Nat
  | HVal.num _ => []
  | HVal.arr es => es

/-- Modelled from the spec: recursive deep copy of a list of object-graph
roots, allocating every copied cell fresh at the end of the heap; returns
the extended heap and the addresses of the copies.  Fuel bounds the
recursion depth. -/
def deepCopyMany : Nat → Heap → Heap → List Nat → Option (Heap × List Nat)
  | _, _, h, [] => some (h, [])
  | 0, _, _, _ :: _ => none
  | Nat.succ fuel, orig, h, a :: rest =>
    match orig[a]? with
    | none => none
    | some (HVal.num v) =>
      match deepCopyMany fuel orig (h ++ [HVal.num v]) rest with
      | none => none
      | some (h2, addrs) => some (h2, h.length :: addrs)
    | some (HVal.arr es) =>
      match deepCopyMany fuel orig h es with
      | none => none
      | some (h1, childAddrs) =>
        match deepCopyMany fuel orig (h1 ++ [HVal.arr childAddrs]) rest with
        | none => none
        | some (h2, addrs) => some (h2, h1.length :: addrs)

/-- Publication date stored in a period node of the object graph: the
first slot of the period's array holds the address of its date cell. -/
def heapPubDate (h : Heap) (a : Nat) : Option Int :=
  match h[a]? with
  | some (HVal.arr (pd :: _)) =>
    match h[pd]? with
    | some (HVal.num d) => some d
    | _ => none
  | _ => none

/-- Modelled from the spec: the heap-level view of
_filter_payload_to_filing_date — the root array of period nodes is
filtered to those published at or before the cutoff, and the kept nodes
are deep-copied into fresh cells so the result shares no cell with the
source payload. -/
def heapFilterToCutoff (fuel : Nat) (h : Heap) (root : Nat) (cutoff : Int) :
    Option (Heap × Nat) :=
  match h[root]? with
  | some (HVal.arr periodAddrs) =>
    let kept := periodAddrs.filter (fun a =>
      match heapPubDate h a with
      | some d => decide (d ≤ cutoff)
      | none => false)
    match deepCopyMany fuel h h kept with
    | some (h1, addrs) => some (h1 ++ [HVal.arr addrs], h1.length)
    | none => none
  | _ => none

end PIT

namespace Dash

/-- Pipeline jobs of components/PipelineRunner.tsx. -/
inductive Job where
  | ingest
  | train
  | backtest
  | report
deriving DecidableEq

/-- Job statuses of types.ts. -/
inductive JobStatus where
  | idle
  | running
  | completed
  | failed
deriving DecidableEq

/-- The PipelineStatus record of types.ts. -/
structure PipelineStatus where
  ingest : JobStatus
  train : JobStatus
  backtest : JobStatus
  report : JobStatus
deriving DecidableEq

/-- Status of one job. -/
def PipelineStatus.get (st : PipelineStatus) : Job → JobStatus
  | Job.ingest => st.ingest
  | Job.train => st.train
  | Job.backtest => st.backtest
  | Job.report => st.report

/-- Status update of one job, leaving the others unchanged (the
functional-update form of setStatus in DashboardPage.tsx). -/
def PipelineStatus.set (st : PipelineStatus) : Job → JobStatus → PipelineStatus
  | Job.ingest, v => { st with ingest := v }
  | Job.train, v => { st with train := v }
  | Job.backtest, v => { st with backtest := v }
  | Job.report, v => { st with report := v }

/-- A run started by handleRun in DashboardPage.tsx and not yet resolved:
its setTimeout callback closes over the isKeySet and status values of the
render in which the button was clicked, so those click-time snapshots are
recorded with the pending run. -/
structure PendingRun where
  job : Job
  keySnapshot : Bool
  statusSnapshot : PipelineStatus
deriving DecidableEq

/-- State of DashboardPage.tsx: the isKeySet and status React state, the
showReport flag, and the queue of pending (un-resolved) runs. -/
structure DashState where
  isKeySet : Bool
  status : PipelineStatus
  showReport : Bool
  pendingRuns : List PendingRun
deriving DecidableEq

/-- The all-idle initial state of DashboardPage.tsx. -/
def initialState : DashState :=
  ⟨false, ⟨JobStatus.idle, JobStatus.idle, JobStatus.idle, JobStatus.idle⟩,
    false, []⟩

/-- getButtonState of components/PipelineRunner.tsx: a job's run button is
disabled while that job runs, ingest requires the API key, and each later
job requires the preceding job's status to be completed. -/
def runDisabled (key : Bool) (st : PipelineStatus) (j : Job) : Bool :=
  if st.get j = JobStatus.running then true
  else
    match j with
    | Job.ingest => !key
    | Job.train => decide (st.ingest ≠ JobStatus.completed)
    | Job.backtest => decide (st.train ≠ JobStatus.completed)
    | Job.report => decide (st.backtest ≠ JobStatus.completed)

/-- The success computation inside handleRun's setTimeout callback in
DashboardPage.tsx, evaluated on the click-time snapshots the callback
closed over; coin stands for the Math.random draw of the train job. -/
def resolveSuccess (e : PendingRun) (coin : Bool) : Bool :=
  match e.job with
  | Job.ingest => e.keySnapshot
  | Job.train => decide (e.statusSnapshot.ingest = JobStatus.completed) && coin
  | Job.backtest => decide (e.statusSnapshot.train = JobStatus.completed)
  | Job.report => decide (e.statusSnapshot.backtest = JobStatus.completed)

/-- Events of the dashboard: setting the API key, clicking a job's run
button (a no-op when the button is disabled), and a pending run's timeout
firing (resolve of the i-th pending run, with the train coin draw). -/
inductive DashEvent where
  | setKey
  | click (j : Job)
  | resolve (i : Nat) (coin : Bool)
deriving DecidableEq

/-- One step of the dashboard state machine, embedded from handleRun in
DashboardPage.tsx and getButtonState in PipelineRunner.tsx. -/
def dashStep (s : DashState) : DashEvent → DashState
  | DashEvent.setKey => { s with isKeySet := true }
  | DashEvent.click j =>
    if runDisabled s.isKeySet s.status j then s
    else
      { s with
        status := s.status.set j JobStatus.running,
        pendingRuns := s.pendingRuns ++ [⟨j, s.isKeySet, s.status⟩] }
  | DashEvent.resolve i coin =>
    match s.pendingRuns[i]? with
    | none => s
    | some e =>
      { s with
        status := s.status.set e.job
          (if resolveSuccess e coin then JobStatus.completed
           else JobStatus.failed),
        pendingRuns := s.pendingRuns.eraseIdx i,
        showReport := s.showReport ||
          (decide (e.job = Job.report) && resolveSuccess e coin) }

/-- Run of a trace of events from a given state. -/
def dashExecFrom (s : DashState) (es : List DashEvent) : DashState :=
  es.foldl dashStep s

/-- Run of a trace of events from the all-idle initial state. -/
def dashExec (es : List DashEvent) : DashState :=
  dashExecFrom initialState es

end Dash

instance {ε α : Type} [DecidableEq ε] [DecidableEq α] :
    DecidableEq (Except ε α) := fun x y =>
  match x, y with
  | Except.ok a, Except.ok b =>
    if h : a = b then isTrue (by rw [h])
    else isFalse (fun hc => h (Except.ok.inj hc))
  | Except.error a, Except.error b =>
    if h : a = b then isTrue (by rw [h])
    else isFalse (fun hc => h (Except.error.inj hc))
  | Except.ok _, Except.error _ => isFalse (fun hc => Except.noConfusion hc)
  | Except.error _, Except.ok _ => isFalse (fun hc => Except.noConfusion hc)

namespace PIT

/-- The documented default lag table (quarterly 60, annual 90, ttm 60
calendar days). -/
def defaultLag : StatementKind → Nat
  | StatementKind.quarterly => 60
  | StatementKind.annual => 90
  | StatementKind.ttm => 60

/-- The documented default source priority order. -/
def defaultPriority : List Source :=
  [Source.reported_date, Source.payload_updated_at, Source.period_end_plus_lag]

/-- The documented default configuration (2 trading-day safety buffer,
4 periods coverage threshold). -/
def exCfg : PITConfig := ⟨defaultLag, 2, defaultPriority, 4⟩

/-- Example period covering 2024-06-30, published 2024-08-14. -/
def exJun : StatementPeriod :=
  ⟨"ACME.US", StatementKind.quarterly, some (toRataDie 2024 6 30),
    some (toRataDie 2024 8 14), none, [("totalRevenue", 280000000)]⟩

/-- Example period covering 2024-03-31, published 2024-05-16. -/
def exMar : StatementPeriod :=
  ⟨"ACME.US", StatementKind.quarterly, some (toRataDie 2024 3 31),
    some (toRataDie 2024 5 16), none, [("totalRevenue", 250000000)]⟩

/-- Example period with no reported date, no updated timestamp and no
period end: its publication date is unresolvable. -/
def exUndatable : StatementPeriod :=
  ⟨"ACME.US", StatementKind.quarterly, none, none, none,
    [("totalRevenue", 999)]⟩

/-- Example payload holding the June and March periods. -/
def exPayloadC2 : List StatementPeriod := [exJun, exMar]

/-- Example payload holding an undatable period alongside a datable one. -/
def exPayloadC9 : List StatementPeriod := [exUndatable, exMar]

/-- Example period for the resolver: covers 2023-06-30, reported to market
2023-08-03 (a Thursday). -/
def exQ2 : StatementPeriod :=
  ⟨"AAPL.US", StatementKind.quarterly, some (toRataDie 2023 6 30),
    some (toRataDie 2023 8 3), none, [("totalRevenue", 81797000000)]⟩

/-- Example period resolved through the payload-updated timestamp. -/
def exUpd : StatementPeriod :=
  ⟨"AAPL.US", StatementKind.quarterly, some (toRataDie 2023 6 30),
    none, some (toRataDie 2023 8 4), [("totalRevenue", 81797000000)]⟩

/-- Example snapshot effective 2023-08-07. -/
def exSnap1 : Snapshot :=
  ⟨"AAPL.US", toRataDie 2023 8 7, StatementKind.quarterly,
    toRataDie 2023 6 30, [exQ2]⟩

/-- Example period behind the second snapshot: covers 2023-09-30, reported
2023-11-02 (a Thursday), so effective 2023-11-06 (Monday). -/
def exQ3 : StatementPeriod :=
  ⟨"AAPL.US", StatementKind.quarterly, some (toRataDie 2023 9 30),
    some (toRataDie 2023 11 2), none, [("totalRevenue", 89498000000)]⟩

/-- Example snapshot effective 2023-11-06. -/
def exSnap2 : Snapshot :=
  ⟨"AAPL.US", toRataDie 2023 11 6, StatementKind.quarterly,
    toRataDie 2023 9 30, [exQ2, exQ3]⟩

/-- Example store holding the two snapshots. -/
def exStore : List Snapshot := [exSnap1, exSnap2]

/-- A deliberately backdated (forged) panel row: observed 2023-08-07 but
attributed to a snapshot effective 2023-11-06. -/
def exBadRow : PanelRow :=
  ⟨"AAPL.US", toRataDie 2023 8 7, toRataDie 2023 11 6, [exQ3]⟩

/-- A panel containing the forged row. -/
def exBadPanel : List PanelRow := [exBadRow]

/-- Example payload for the append example: the single Q2-2023 period. -/
def exPayloadC4 : List StatementPeriod := [exQ2]

/-- Example heap: cell 0 a date 5, cell 1 a period published on day 5,
cell 2 a date 20, cell 3 a period published on day 20, cell 4 the root
payload listing both periods. -/
def exH8 : Heap :=
  [HVal.num 5, HVal.arr [0], HVal.num 20, HVal.arr [2], HVal.arr [1, 3]]

/-- The heap produced by filtering exH8 at cutoff 10: the source cells
followed by the fresh copy (date cell 5, period node 6, new root 7). -/
def exH8Copy : Heap :=
  exH8 ++ [HVal.num 5, HVal.arr [5], HVal.arr [6]]

/-- Snapshot materialized for the March-ending period (reported
2024-05-16, effective 2024-05-20 after the 2-trading-day buffer). -/
def exSnapMar : Snapshot :=
  ⟨"ACME.US", toRataDie 2024 5 20, StatementKind.quarterly,
    toRataDie 2024 3 31, [exMar]⟩

/-- Snapshot materialized for the June-ending period (reported 2024-08-14,
effective 2024-08-16): its payload accumulates both periods. -/
def exSnapJun : Snapshot :=
  ⟨"ACME.US", toRataDie 2024 8 16, StatementKind.quarterly,
    toRataDie 2024 6 30, [exMar, exJun]⟩

/-- The snapshot appended from exPayloadC4: effective 2023-08-07, payload
filtered to that date. -/
def exSnapC4 : Snapshot :=
  ⟨"AAPL.US", toRataDie 2023 8 7, StatementKind.quarterly,
    toRataDie 2023 6 30, [exQ2]⟩

/-- Store holding exactly the appended snapshot. -/
def exStoreC4 : List Snapshot := [exSnapC4]

end PIT

namespace Dash

/-- Trace refuting the claim that a run can resolve to completed only when
the preceding job's status is completed at resolution time: ingest is
re-clicked (and hence running) while the train run is still pending, and
the train run then resolves successfully from its click-time snapshot. -/
def cexTrace : List DashEvent :=
  [DashEvent.setKey, DashEvent.click Job.ingest, DashEvent.resolve 0 true,
   DashEvent.click Job.train, DashEvent.click Job.ingest,
   DashEvent.resolve 0 true]

/-- A full successful pipeline trace. -/
def okTrace : List DashEvent :=
  [DashEvent.setKey, DashEvent.click Job.ingest, DashEvent.resolve 0 true,
   DashEvent.click Job.train, DashEvent.resolve 0 true,
   DashEvent.click Job.backtest, DashEvent.resolve 0 true,
   DashEvent.click Job.report, DashEvent.resolve 0 true]

end Dash

namespace PIT

theorem mem_insertByKey (key : StatementPeriod → Nat) (p x : StatementPeriod) :
    ∀ l : List StatementPeriod, x ∈ insertByKey key p l ↔ x = p ∨ x ∈ l := by
  intro l
  induction l with
  | nil => simp [insertByKey]
  | cons q rest ih =>
    simp only [insertByKey]
    split
    · simp [List.mem_cons]
    · simp only [List.mem_cons, ih]
      tauto

theorem mem_sortByKey (key : StatementPeriod → Nat) (x : StatementPeriod) :
    ∀ l : List StatementPeriod, x ∈ sortByKey key l ↔ x ∈ l := by
  intro l
  induction l with
  | nil => simp [sortByKey]
  | cons q rest ih =>
    simp only [sortByKey, mem_insertByKey, List.mem_cons, ih]

theorem mem_filter_to_cutoff (cfg : PITConfig) (payload : List StatementPeriod)
    (cutoff : Nat) (p : StatementPeriod) :
    p ∈ filter_to_cutoff cfg payload cutoff ↔
      p ∈ payload ∧ ∃ d, resolvePublicationDate cfg p = some d ∧ d ≤ cutoff := by
  unfold filter_to_cutoff
  rw [List.mem_filter, mem_sortByKey]
  constructor
  · rintro ⟨hmem, hinc⟩
    refine ⟨hmem, ?_⟩
    unfold includedAtCutoff at hinc
    cases hres : resolvePublicationDate cfg p with
    | none => rw [hres] at hinc; exact absurd hinc (by simp)
    | some d =>
      rw [hres] at hinc
      exact ⟨d, rfl, of_decide_eq_true hinc⟩
  · rintro ⟨hmem, d, hres, hle⟩
    refine ⟨hmem, ?_⟩
    unfold includedAtCutoff
    rw [hres]
    exact decide_eq_true hle

theorem firstApplicable_spec (cfg : PITConfig) (p : StatementPeriod) :
    ∀ (l : List Source) (d : Nat) (s : Source),
      firstApplicable cfg p l = some (d, s) →
      applySource cfg p s = some d ∧
        ∃ pre post, l = pre ++ s :: post ∧
          ∀ t ∈ pre, applySource cfg p t = none := by
  intro l
  induction l with
  | nil => intro d s h; simp [firstApplicable] at h
  | cons a rest ih =>
    intro d s h
    simp only [firstApplicable] at h
    cases ha : applySource cfg p a with
    | some d' =>
      rw [ha] at h
      have hds := Option.some.inj h
      have hd : d' = d := congrArg Prod.fst hds
      have hs : a = s := congrArg Prod.snd hds
      subst hd; subst hs
      exact ⟨ha, [], rest, rfl, by simp⟩
    | none =>
      rw [ha] at h
      obtain ⟨h1, pre, post, hl, hpre⟩ := ih d s h
      refine ⟨h1, a :: pre, post, by rw [hl]; rfl, ?_⟩
      intro t ht
      rcases List.mem_cons.mp ht with h' | h'
      · rw [h']; exact ha
      · exact hpre t h'

theorem resolve_ok_spec (cfg : PITConfig) (p : StatementPeriod)
    (r : ResolvedDate) (h : resolve_effective_date cfg p = Except.ok r) :
    ∃ base, firstApplicable cfg p cfg.source_priority = some (base, r.source) ∧
      r.effective_date = addTradingDays base cfg.safety_buffer_trading_days := by
  unfold resolve_effective_date at h
  cases hl : cfg.source_priority with
  | nil => rw [hl] at h; exact absurd h (by simp)
  | cons a rest =>
    rw [hl] at h
    cases hfa : firstApplicable cfg p (a :: rest) with
    | none => rw [hfa] at h; exact absurd h (by simp)
    | some ds =>
      rw [hfa] at h
      have hr := Except.ok.inj h
      refine ⟨ds.fst, ?_, ?_⟩
      · rw [← hr]
      · rw [← hr]

/-- Claim C2: filter_to_cutoff includes a period exactly when that
period's own publication date (its explicit reported date, otherwise its
own resolved effective date — never data of a different period) is at or
before the cutoff, regardless of period end; on the documented example,
cutoff 2024-06-01 keeps only the March-ending period and cutoff 2024-08-14
keeps both, with excluded periods entirely absent. -/
theorem claim_C2_publication_order_filtering :
    (∀ (cfg : PITConfig) (payload : List StatementPeriod) (cutoff : Nat)
        (p : StatementPeriod),
      p ∈ filter_to_cutoff cfg payload cutoff ↔
        p ∈ payload ∧ ∃ d, resolvePublicationDate cfg p = some d ∧ d ≤ cutoff) ∧
    (∀ (cfg : PITConfig) (p : StatementPeriod) (d : Nat),
      p.reported_date = some d → resolvePublicationDate cfg p = some d) ∧
    filter_to_cutoff exCfg exPayloadC2 (toRataDie 2024 6 1) = [exMar] ∧
    filter_to_cutoff exCfg exPayloadC2 (toRataDie 2024 8 14) = [exMar, exJun] := by
  refine ⟨mem_filter_to_cutoff, ?_, by decide, by decide⟩
  intro cfg p d h
  unfold resolvePublicationDate
  rw [h]

/-- Witness for claim C2 at a concrete input: the June-ending period's own
publication date is its reported date 2024-08-14. -/
theorem claim_C2_witness :
    resolvePublicationDate exCfg exJun = some (toRataDie 2024 8 14) :=
  claim_C2_publication_order_filtering.2.1 exCfg exJun (toRataDie 2024 8 14) rfl

/-- Claim C6: the resolver adds the trading-day safety buffer to the
chosen date on every resolution path, whatever source was used; a reported
date of 2023-08-03 with a 2-trading-day buffer resolves to 2023-08-07, and
a payload-updated date of 2023-08-04 resolves to 2023-08-08. -/
theorem claim_C6_buffer_unconditional :
    (∀ (cfg : PITConfig) (p : StatementPeriod) (r : ResolvedDate),
      resolve_effective_date cfg p = Except.ok r →
      ∃ base, applySource cfg p r.source = some base ∧
        r.effective_date = addTradingDays base cfg.safety_buffer_trading_days) ∧
    resolve_effective_date exCfg exQ2
      = Except.ok ⟨toRataDie 2023 8 7, Source.reported_date⟩ ∧
    resolve_effective_date exCfg exUpd
      = Except.ok ⟨toRataDie 2023 8 8, Source.payload_updated_at⟩ := by
  refine ⟨?_, by decide, by decide⟩
  intro cfg p r h
  obtain ⟨base, hfa, heff⟩ := resolve_ok_spec cfg p r h
  obtain ⟨happ, _⟩ :=
    firstApplicable_spec cfg p cfg.source_priority base r.source hfa
  exact ⟨base, happ, heff⟩

/-- Witness for claim C6 at a concrete input: the reported-date path also
carries the buffer — the resolved date 2023-08-07 is exactly the reported
date 2023-08-03 advanced by the 2-trading-day buffer. -/
theorem claim_C6_witness :
    applySource exCfg exQ2 Source.reported_date = some (toRataDie 2023 8 3) ∧
    toRataDie 2023 8 7
      = addTradingDays (toRataDie 2023 8 3) exCfg.safety_buffer_trading_days := by
  obtain ⟨base, h1, h2⟩ := claim_C6_buffer_unconditional.1 exCfg exQ2
    ⟨toRataDie 2023 8 7, Source.reported_date⟩ (by decide)
  have hb : base = toRataDie 2023 8 3 := by
    have h3 : applySource exCfg exQ2
        (ResolvedDate.mk (toRataDie 2023 8 7) Source.reported_date).source
        = some (toRataDie 2023 8 3) := by decide
    exact Option.some.inj (h1.symm.trans h3)
  rw [hb] at h1 h2
  exact ⟨h1, h2⟩

/-- Claim C7: the resolver applies the first applicable source in the
configured priority order — the reported-to-market date when present,
otherwise the payload-updated timestamp, otherwise period end plus the
per-kind lag converted to the nearest business day — and the result
records which source was used. -/
theorem claim_C7_priority_order :
    (∀ (cfg : PITConfig) (p : StatementPeriod) (r : ResolvedDate),
      resolve_effective_date cfg p = Except.ok r →
      ∃ pre post, cfg.source_priority = pre ++ r.source :: post ∧
        (∀ s ∈ pre, applySource cfg p s = none) ∧
        ∃ base, applySource cfg p r.source = some base ∧
          r.effective_date = addTradingDays base cfg.safety_buffer_trading_days) ∧
    (∀ (cfg : PITConfig) (p : StatementPeriod),
      applySource cfg p Source.reported_date = p.reported_date) ∧
    (∀ (cfg : PITConfig) (p : StatementPeriod),
      applySource cfg p Source.payload_updated_at = p.payload_updated_at) ∧
    (∀ (cfg : PITConfig) (p : StatementPeriod),
      applySource cfg p Source.period_end_plus_lag =
        p.period_end.map
          (fun e => toBusinessDay (e + cfg.lag_by_kind p.statement_kind))) := by
  refine ⟨?_, fun _ _ => rfl, fun _ _ => rfl, fun _ _ => rfl⟩
  intro cfg p r h
  obtain ⟨base, hfa, heff⟩ := resolve_ok_spec cfg p r h
  obtain ⟨happ, pre, post, hl, hpre⟩ :=
    firstApplicable_spec cfg p cfg.source_priority base r.source hfa
  exact ⟨pre, post, hl, hpre, base, happ, heff⟩

/-- Witness for claim C7 at a concrete input: with no reported date, the
resolver used the payload-updated timestamp 2023-08-04 and recorded that
source; the effective date is that timestamp plus the buffer. -/
theorem claim_C7_witness :
    applySource exCfg exUpd Source.payload_updated_at
      = some (toRataDie 2023 8 4) ∧
    toRataDie 2023 8 8
      = addTradingDays (toRataDie 2023 8 4) exCfg.safety_buffer_trading_days := by
  obtain ⟨pre, post, hl, hpre, base, h1, h2⟩ := claim_C7_priority_order.1
    exCfg exUpd ⟨toRataDie 2023 8 8, Source.payload_updated_at⟩ (by decide)
  have hb : base = toRataDie 2023 8 4 := by
    have h3 : applySource exCfg exUpd
        (ResolvedDate.mk (toRataDie 2023 8 8) Source.payload_updated_at).source
        = some (toRataDie 2023 8 4) := by decide
    exact Option.some.inj (h1.symm.trans h3)
  rw [hb] at h1 h2
  exact ⟨h1, h2⟩

/-- Claim C9: a period whose publication date cannot be resolved is
excluded from the filtered payload at every cutoff, while the call still
succeeds and returns the remaining datable periods. -/
theorem claim_C9_fail_closed :
    (∀ (cfg : PITConfig) (payload : List StatementPeriod) (cutoff : Nat)
        (p : StatementPeriod),
      resolvePublicationDate cfg p = none →
      p ∉ filter_to_cutoff cfg payload cutoff) ∧
    (∀ (cfg : PITConfig) (payload : List StatementPeriod) (cutoff : Nat)
        (q : StatementPeriod),
      q ∈ payload → (∃ d, resolvePublicationDate cfg q = some d ∧ d ≤ cutoff) →
      q ∈ filter_to_cutoff cfg payload cutoff) ∧
    resolvePublicationDate exCfg exUndatable = none ∧
    filter_to_cutoff exCfg exPayloadC9 (toRataDie 2030 1 1) = [exMar] := by
  refine ⟨?_, ?_, by decide, by decide⟩
  · intro cfg payload cutoff p hnone hmem
    obtain ⟨_, d, hres, _⟩ := (mem_filter_to_cutoff cfg payload cutoff p).mp hmem
    rw [hnone] at hres
    exact Option.noConfusion hres
  · intro cfg payload cutoff q hmem hres
    exact (mem_filter_to_cutoff cfg payload cutoff q).mpr ⟨hmem, hres⟩

/-- Witness for claim C9 at a concrete input: the undatable period is
absent from the filtered payload even at a far-future cutoff. -/
theorem claim_C9_witness :
    exUndatable ∉ filter_to_cutoff exCfg exPayloadC9 (toRataDie 2030 1 1) :=
  claim_C9_fail_closed.1 exCfg exPayloadC9 (toRataDie 2030 1 1) exUndatable
    (by decide)

theorem append_snapshot_ok (cfg : PITConfig) (store : List Snapshot)
    (sym : String) (full : List StatementPeriod) (pe : Nat)
    (k : StatementKind) (store1 : List Snapshot)
    (h : append_snapshot cfg store sym full pe k = Except.ok store1) :
    ∃ eff, appendKeyEff cfg full pe k = some eff ∧
      ((store.any (fun s => sameKey s sym eff k pe) = true ∧ store1 = store) ∨
       (store.any (fun s => sameKey s sym eff k pe) = false ∧
        store1 = store ++
          [⟨sym, eff, k, pe, filter_to_cutoff cfg full eff⟩])) := by
  unfold append_snapshot at h
  unfold appendKeyEff
  cases hf : findTriggering full pe k with
  | none =>
    simp only [hf] at h
    exact Except.noConfusion h
  | some p =>
    simp only [hf] at h ⊢
    cases hr : resolve_effective_date cfg p with
    | error e =>
      simp only [hr] at h
      exact Except.noConfusion h
    | ok r =>
      simp only [hr] at h ⊢
      refine ⟨r.effective_date, rfl, ?_⟩
      by_cases ha : store.any (fun s => sameKey s sym r.effective_date k pe) = true
      · rw [if_pos ha] at h
        exact Or.inl ⟨ha, (Except.ok.inj h).symm⟩
      · rw [if_neg ha] at h
        exact Or.inr ⟨Bool.eq_false_iff.mpr ha, (Except.ok.inj h).symm⟩

theorem countKey_eq_zero_iff (store : List Snapshot) (sym : String)
    (eff : Nat) (k : StatementKind) (pe : Nat) :
    countKey store sym eff k pe = 0 ↔
      store.any (fun s => sameKey s sym eff k pe) = false := by
  induction store with
  | nil => simp [countKey]
  | cons s rest ih =>
    by_cases hs : sameKey s sym eff k pe = true
    · simp [countKey, List.filter, hs]
    · have hs' : sameKey s sym eff k pe = false := Bool.eq_false_iff.mpr hs
      simp [countKey, List.filter, hs', ih]

theorem append_snapshot_noop (cfg : PITConfig) (store : List Snapshot)
    (sym : String) (full : List StatementPeriod) (pe : Nat)
    (k : StatementKind) (eff : Nat)
    (hke : appendKeyEff cfg full pe k = some eff)
    (ha : store.any (fun s => sameKey s sym eff k pe) = true) :
    append_snapshot cfg store sym full pe k = Except.ok store := by
  unfold append_snapshot
  unfold appendKeyEff at hke
  cases hf : findTriggering full pe k with
  | none =>
    simp only [hf] at hke
    exact Option.noConfusion hke
  | some p =>
    simp only [hf] at hke ⊢
    cases hr : resolve_effective_date cfg p with
    | error e =>
      simp only [hr] at hke
      exact Option.noConfusion hke
    | ok r =>
      simp only [hr] at hke ⊢
      rw [Option.some.inj hke, if_pos ha]

/-- Claim C4: a second append_snapshot call with inputs resolving to the
same key is a no-op — the store is returned unchanged, existing snapshots
are only ever extended (never overwritten or mutated), and exactly one
snapshot with the resolved key exists afterwards. -/
theorem claim_C4_idempotent_append :
    ∀ (cfg : PITConfig) (store : List Snapshot) (sym : String)
      (full : List StatementPeriod) (pe : Nat) (k : StatementKind)
      (store1 : List Snapshot),
    append_snapshot cfg store sym full pe k = Except.ok store1 →
    append_snapshot cfg store1 sym full pe k = Except.ok store1 ∧
    (∃ ext, store1 = store ++ ext) ∧
    (∀ eff, appendKeyEff cfg full pe k = some eff →
      countKey store sym eff k pe = 0 → countKey store1 sym eff k pe = 1) := by
  intro cfg store sym full pe k store1 h
  obtain ⟨eff0, hke, hcase⟩ :=
    append_snapshot_ok cfg store sym full pe k store1 h
  have heff : ∀ eff, appendKeyEff cfg full pe k = some eff → eff = eff0 :=
    fun eff he => Option.some.inj (he.symm.trans hke)
  rcases hcase with ⟨ha, hst⟩ | ⟨ha, hst⟩
  · refine ⟨?_, ⟨[], by rw [hst, List.append_nil]⟩, ?_⟩
    · rw [hst]
      exact append_snapshot_noop cfg store sym full pe k eff0 hke ha
    · intro eff he h0
      exfalso
      have h0' := (countKey_eq_zero_iff store sym eff k pe).mp h0
      rw [heff eff he] at h0'
      rw [h0'] at ha
      exact Bool.false_ne_true ha
  · have hsame : sameKey
        (⟨sym, eff0, k, pe, filter_to_cutoff cfg full eff0⟩ : Snapshot)
        sym eff0 k pe = true := by
      simp [sameKey]
    have hany : store1.any (fun s => sameKey s sym eff0 k pe) = true := by
      rw [hst]
      simp only [List.any_append, List.any_cons, List.any_nil, hsame]
      simp
    refine ⟨append_snapshot_noop cfg store1 sym full pe k eff0 hke hany,
      ⟨_, hst⟩, ?_⟩
    intro eff he h0
    rw [heff eff he] at h0 ⊢
    rw [hst]
    unfold countKey at h0 ⊢
    rw [List.filter_append, List.length_append, h0]
    simp [List.filter, hsame]

/-- Witness for claim C4 at a concrete input: after appending the Q2-2023
snapshot to an empty store, a second identical append returns the store
unchanged and exactly one snapshot with the resolved key is stored. -/
theorem claim_C4_witness :
    append_snapshot exCfg exStoreC4 "AAPL.US" exPayloadC4
        (toRataDie 2023 6 30) StatementKind.quarterly
      = Except.ok exStoreC4 ∧
    countKey exStoreC4 "AAPL.US" (toRataDie 2023 8 7)
        StatementKind.quarterly (toRataDie 2023 6 30) = 1 := by
  have h := claim_C4_idempotent_append exCfg [] "AAPL.US" exPayloadC4
    (toRataDie 2023 6 30) StatementKind.quarterly exStoreC4 (by decide)
  exact ⟨h.1, h.2.2 (toRataDie 2023 8 7) (by decide) (by decide)⟩

theorem foldl_preserve (step : List Snapshot → StatementPeriod → List Snapshot)
    (P : Snapshot → Prop)
    (hstep : ∀ st p, (∀ s ∈ st, P s) → ∀ s ∈ step st p, P s) :
    ∀ (l : List StatementPeriod) (st : List Snapshot),
      (∀ s ∈ st, P s) → ∀ s ∈ l.foldl step st, P s := by
  intro l
  induction l with
  | nil => intro st hst; simpa using hst
  | cons p rest ih =>
    intro st hst
    exact ih (step st p) (hstep st p hst)

theorem materialize_payload_inv (cfg : PITConfig) (sym : String)
    (full : List StatementPeriod) :
    ∀ s ∈ materialize_snapshots cfg sym full,
      s.payload = filter_to_cutoff cfg full s.effective_date := by
  unfold materialize_snapshots
  refine foldl_preserve _ _ ?_ _ [] (by simp)
  intro st p hst s hs
  cases hpe : p.period_end with
  | none => rw [hpe] at hs; exact hst s hs
  | some pe =>
    simp only [hpe] at hs
    cases happ : append_snapshot cfg st sym full pe p.statement_kind with
    | error e => simp only [happ] at hs; exact hst s hs
    | ok st' =>
      simp only [happ] at hs
      obtain ⟨eff, _, hcase⟩ :=
        append_snapshot_ok cfg st sym full pe p.statement_kind st' happ
      rcases hcase with ⟨_, hst'⟩ | ⟨_, hst'⟩
      · rw [hst'] at hs; exact hst s hs
      · rw [hst'] at hs
        rcases List.mem_append.mp hs with h' | h'
        · exact hst s h'
        · rcases List.mem_singleton.mp h' with rfl
          rfl

theorem filter_to_cutoff_mono (cfg : PITConfig) (full : List StatementPeriod)
    {e1 e2 : Nat} (h : e1 ≤ e2) :
    ∀ p ∈ filter_to_cutoff cfg full e1, p ∈ filter_to_cutoff cfg full e2 := by
  intro p hp
  obtain ⟨hmem, d, hres, hle⟩ := (mem_filter_to_cutoff cfg full e1 p).mp hp
  exact (mem_filter_to_cutoff cfg full e2 p).mpr ⟨hmem, d, hres, hle.trans h⟩

/-- Claim C3: snapshots materialized from one fetched payload are
cumulative — for any two with s1 effective strictly before s2, every
period of s1's payload also appears in s2's payload; on the documented
example the two materialized snapshots are exactly the March snapshot
holding one period and the June snapshot holding both. -/
theorem claim_C3_monotonic_accumulation :
    (∀ (cfg : PITConfig) (sym : String) (full : List StatementPeriod)
        (s1 s2 : Snapshot),
      s1 ∈ materialize_snapshots cfg sym full →
      s2 ∈ materialize_snapshots cfg sym full →
      s1.effective_date < s2.effective_date →
      ∀ p ∈ s1.payload, p ∈ s2.payload) ∧
    materialize_snapshots exCfg "ACME.US" exPayloadC2
      = [exSnapMar, exSnapJun] := by
  refine ⟨?_, by decide⟩
  intro cfg sym full s1 s2 h1 h2 hlt p hp
  have hp1 := materialize_payload_inv cfg sym full s1 h1
  have hp2 := materialize_payload_inv cfg sym full s2 h2
  rw [hp1] at hp
  rw [hp2]
  exact filter_to_cutoff_mono cfg full (Nat.le_of_lt hlt) p hp

/-- Witness for claim C3 at a concrete input: the March period, present in
the earlier snapshot's payload, is also present in the later one's. -/
theorem claim_C3_witness : exMar ∈ exSnapJun.payload :=
  claim_C3_monotonic_accumulation.1 exCfg "ACME.US" exPayloadC2
    exSnapMar exSnapJun (by decide) (by decide) (by decide) exMar (by decide)

theorem foldl_chooseLater_mem :
    ∀ (l : List Snapshot) (s : Snapshot), l.foldl chooseLater s ∈ s :: l := by
  intro l
  induction l with
  | nil => intro s; simp [List.foldl]
  | cons b rest ih =>
    intro s
    have h := ih (chooseLater s b)
    have hc : chooseLater s b = s ∨ chooseLater s b = b := by
      unfold chooseLater
      split <;> simp
    rcases hc with hc | hc <;>
      · rw [hc] at h
        simp only [List.foldl]
        rcases List.mem_cons.mp h with h' | h' <;> simp [h', hc]

theorem le_chooseLater_left (a b : Snapshot) :
    a.effective_date ≤ (chooseLater a b).effective_date := by
  unfold chooseLater
  split
  · rename_i h
    rcases h with h | ⟨h, _⟩
    · exact Nat.le_of_lt h
    · exact Nat.le_of_eq h
  · exact Nat.le_refl _

theorem le_chooseLater_right (a b : Snapshot) :
    b.effective_date ≤ (chooseLater a b).effective_date := by
  unfold chooseLater
  split
  · exact Nat.le_refl _
  · rename_i h
    push_neg at h
    exact h.1

theorem foldl_chooseLater_ge :
    ∀ (l : List Snapshot) (s x : Snapshot), x ∈ s :: l →
      x.effective_date ≤ (l.foldl chooseLater s).effective_date := by
  intro l
  induction l with
  | nil =>
    intro s x hx
    rcases List.mem_cons.mp hx with h | h
    · rw [h]
      exact Nat.le_refl _
    · exact absurd h (List.not_mem_nil x)
  | cons b rest ih =>
    intro s x hx
    simp only [List.foldl]
    rcases List.mem_cons.mp hx with h | h
    · rw [h]
      exact Nat.le_trans (le_chooseLater_left s b)
        (ih (chooseLater s b) (chooseLater s b) (List.mem_cons_self _ _))
    · rcases List.mem_cons.mp h with h' | h'
      · rw [h']
        exact Nat.le_trans (le_chooseLater_right s b)
          (ih (chooseLater s b) (chooseLater s b) (List.mem_cons_self _ _))
      · exact ih (chooseLater s b) x (List.mem_cons_of_mem _ h')

theorem latestAsOf_spec (snaps : List Snapshot) (d : Nat) (s : Snapshot)
    (h : latestAsOf snaps d = some s) :
    s ∈ snaps ∧ s.effective_date ≤ d ∧
      ∀ s' ∈ snaps, s'.effective_date ≤ d →
        s'.effective_date ≤ s.effective_date := by
  unfold latestAsOf at h
  cases hf : snaps.filter (fun s => decide (s.effective_date ≤ d)) with
  | nil => rw [hf] at h; exact Option.noConfusion h
  | cons s0 rest =>
    rw [hf] at h
    have hs := Option.some.inj h
    have hmem : s ∈ s0 :: rest := by
      rw [← hs]; exact foldl_chooseLater_mem rest s0
    have hmemf : s ∈ snaps.filter (fun s => decide (s.effective_date ≤ d)) := by
      rw [hf]; exact hmem
    obtain ⟨hmem', hle⟩ := List.mem_filter.mp hmemf
    refine ⟨hmem', of_decide_eq_true hle, ?_⟩
    intro s' hs' hle'
    have hmf : s' ∈ snaps.filter (fun s => decide (s.effective_date ≤ d)) :=
      List.mem_filter.mpr ⟨hs', decide_eq_true hle'⟩
    rw [hf] at hmf
    rw [← hs]
    exact foldl_chooseLater_ge rest s0 s' hmf

theorem latestAsOf_none (snaps : List Snapshot) (d : Nat)
    (h : ∀ s ∈ snaps, d < s.effective_date) : latestAsOf snaps d = none := by
  unfold latestAsOf
  have hf : snaps.filter (fun s => decide (s.effective_date ≤ d)) = [] := by
    rw [List.filter_eq_nil_iff]
    intro s hs
    simp only [decide_eq_true_eq]
    exact Nat.not_le.mpr (h s hs)
  rw [hf]

theorem mem_dateRange (a b d : Nat) : d ∈ dateRange a b ↔ a ≤ d ∧ d ≤ b := by
  unfold dateRange
  simp only [List.mem_map, List.mem_range]
  constructor
  · rintro ⟨i, hi, rfl⟩
    omega
  · rintro ⟨h1, h2⟩
    exact ⟨d - a, by omega, by omega⟩

theorem mem_symbolRows (store : List Snapshot) (sym : String) (a b : Nat)
    (r : PanelRow) :
    r ∈ symbolRows store sym a b ↔
      ∃ d, a ≤ d ∧ d ≤ b ∧
        ∃ s, latestAsOf (snapshotsFor store sym) d = some s ∧
          r = mkRow sym d s := by
  unfold symbolRows
  rw [List.mem_filterMap]
  constructor
  · rintro ⟨d, hd, hmap⟩
    obtain ⟨s, hs, hr⟩ := Option.map_eq_some'.mp hmap
    obtain ⟨h1, h2⟩ := (mem_dateRange a b d).mp hd
    exact ⟨d, h1, h2, s, hs, hr.symm⟩
  · rintro ⟨d, h1, h2, s, hs, rfl⟩
    refine ⟨d, (mem_dateRange a b d).mpr ⟨h1, h2⟩, ?_⟩
    rw [hs]
    rfl

theorem mem_build_panel (store : List Snapshot) (symbols : List String)
    (a b : Nat) (r : PanelRow) :
    r ∈ build_panel store symbols a b ↔
      ∃ sym ∈ symbols, r ∈ symbolRows store sym a b := by
  unfold build_panel
  induction symbols with
  | nil => simp
  | cons s rest ih =>
    simp only [List.foldr_cons, List.mem_append, ih, List.mem_cons]
    constructor
    · rintro (h | ⟨sym, hsym, hr⟩)
      · exact ⟨s, Or.inl rfl, h⟩
      · exact ⟨sym, Or.inr hsym, hr⟩
    · rintro ⟨sym, hsym | hsym, hr⟩
      · rw [hsym] at hr
        exact Or.inl hr
      · exact Or.inr ⟨sym, hsym, hr⟩

/-- Claim C5: build_panel assigns to each symbol and observation date the
payload of the latest snapshot effective at or before that date (the
populated rows are exactly characterised this way), leaves dates with no
valid snapshot yet unpopulated, and on the documented example the
half-open validity windows give the first snapshot's values on 2023-11-05
and the second's on 2023-11-06 exactly, never both on one date. -/
theorem claim_C5_half_open_windows :
    (∀ (store : List Snapshot) (sym : String) (a b : Nat) (r : PanelRow),
      r ∈ symbolRows store sym a b ↔
        ∃ d, a ≤ d ∧ d ≤ b ∧
          ∃ s, latestAsOf (snapshotsFor store sym) d = some s ∧
            r = mkRow sym d s) ∧
    (∀ (snaps : List Snapshot) (d : Nat) (s : Snapshot),
      latestAsOf snaps d = some s →
        s ∈ snaps ∧ s.effective_date ≤ d ∧
          ∀ s' ∈ snaps, s'.effective_date ≤ d →
            s'.effective_date ≤ s.effective_date) ∧
    (∀ (snaps : List Snapshot) (d : Nat),
      (∀ s ∈ snaps, d < s.effective_date) → latestAsOf snaps d = none) ∧
    build_panel exStore ["AAPL.US"] (toRataDie 2023 11 5) (toRataDie 2023 11 6)
      = [mkRow "AAPL.US" (toRataDie 2023 11 5) exSnap1,
         mkRow "AAPL.US" (toRataDie 2023 11 6) exSnap2] :=
  ⟨mem_symbolRows, latestAsOf_spec, latestAsOf_none, by decide⟩

/-- Witness for claim C5 at a concrete input: on the boundary date
2023-11-06 the selected snapshot is the one effective that very day, and
its effective date is at or before the observation date. -/
theorem claim_C5_witness :
    exSnap2 ∈ snapshotsFor exStore "AAPL.US" ∧
    exSnap2.effective_date ≤ toRataDie 2023 11 6 := by
  have h := claim_C5_half_open_windows.2.1 (snapshotsFor exStore "AAPL.US")
    (toRataDie 2023 11 6) exSnap2 (by decide)
  exact ⟨h.1, h.2.1⟩

/-- Claim C1: every populated cell of any panel built by build_panel over
any stored snapshot history is attributed to a snapshot effective at or
before the cell's observation date, and validate returns Ok on every such
panel; on any panel containing a populated cell whose snapshot effective
date exceeds its observation date — such as one holding a deliberately
backdated row — validate fails with a LookAheadViolation identifying the
offending symbol, date and snapshot effective date. -/
theorem claim_C1_no_future_leakage :
    (∀ (store : List Snapshot) (symbols : List String) (a b : Nat),
      (∀ r ∈ build_panel store symbols a b,
        r.snapshot_effective_date ≤ r.date) ∧
      validate (build_panel store symbols a b) = Except.ok ()) ∧
    (∀ panel : List PanelRow,
      (∃ r ∈ panel, r.date < r.snapshot_effective_date) →
      ∃ v, validate panel = Except.error v ∧
        ∃ r ∈ panel, r.date < r.snapshot_effective_date ∧
          v.symbol = r.symbol ∧ v.date = r.date ∧
          v.snapshot_effective_date = r.snapshot_effective_date) ∧
    validate exBadPanel
      = Except.error ⟨"AAPL.US", toRataDie 2023 8 7, toRataDie 2023 11 6⟩ := by
  have hrows : ∀ (store : List Snapshot) (symbols : List String) (a b : Nat),
      ∀ r ∈ build_panel store symbols a b,
        r.snapshot_effective_date ≤ r.date := by
    intro store symbols a b r hr
    obtain ⟨sym, _, hr'⟩ := (mem_build_panel store symbols a b r).mp hr
    obtain ⟨d, _, _, s, hs, rfl⟩ :=
      (mem_symbolRows store sym a b r).mp hr'
    exact (latestAsOf_spec (snapshotsFor store sym) d s hs).2.1
  refine ⟨fun store symbols a b => ⟨hrows store symbols a b, ?_⟩, ?_, by decide⟩
  · have hnone : (build_panel store symbols a b).find? violates = none := by
      rw [List.find?_eq_none]
      intro r hr
      simp only [violates, decide_eq_true_eq]
      exact Nat.not_lt.mpr (hrows store symbols a b r hr)
    unfold validate
    rw [hnone]
  · intro panel ⟨r0, hr0, hviol⟩
    cases hfind : panel.find? violates with
    | none =>
      exfalso
      have := List.find?_eq_none.mp hfind r0 hr0
      simp only [violates, decide_eq_true_eq] at this
      exact this hviol
    | some rv =>
      have hmem := List.mem_of_find?_eq_some hfind
      have hv := List.find?_some hfind
      simp only [violates, decide_eq_true_eq] at hv
      refine ⟨⟨rv.symbol, rv.date, rv.snapshot_effective_date⟩, ?_,
        rv, hmem, hv, rfl, rfl, rfl⟩
      unfold validate
      rw [hfind]

/-- Witness for claim C1 at a concrete input: the cell built for
2023-11-05 is attributed to the snapshot effective 2023-08-07 (at or
before it), the panel built from the stored history validates Ok, and the
forged backdated panel fails validation. -/
theorem claim_C1_witness :
    (mkRow "AAPL.US" (toRataDie 2023 11 5) exSnap1).snapshot_effective_date
      ≤ (mkRow "AAPL.US" (toRataDie 2023 11 5) exSnap1).date ∧
    validate (build_panel exStore ["AAPL.US"] (toRataDie 2023 11 5)
      (toRataDie 2023 11 6)) = Except.ok () := by
  have h := claim_C1_no_future_leakage
  exact ⟨(h.1 exStore ["AAPL.US"] (toRataDie 2023 11 5)
      (toRataDie 2023 11 6)).1 _ (by decide),
    (h.1 exStore ["AAPL.US"] (toRataDie 2023 11 5) (toRataDie 2023 11 6)).2⟩

theorem deepCopyMany_spec :
    ∀ (fuel : Nat) (orig h : Heap) (roots : List Nat) (h' : Heap)
      (rs : List Nat),
      deepCopyMany fuel orig h roots = some (h', rs) →
      h.length ≤ h'.length ∧
      (∀ i, i < h.length → h'[i]? = h[i]?) ∧
      (∀ r ∈ rs, h.length ≤ r ∧ r < h'.length) ∧
      (∀ i c, h.length ≤ i → h'[i]? = some c →
        ∀ b ∈ c.refs, h.length ≤ b ∧ b < h'.length) := by
  intro fuel
  induction fuel with
  | zero =>
    intro orig h roots h' rs hcall
    cases roots with
    | nil =>
      have hp := Option.some.inj hcall
      have h1 : h = h' := congrArg Prod.fst hp
      have h2 : ([] : List Nat) = rs := congrArg Prod.snd hp
      subst h1; subst h2
      refine ⟨Nat.le_refl _, fun i _ => rfl, by simp, ?_⟩
      intro i c hi hc
      rw [List.getElem?_eq_none_iff.mpr hi] at hc
      exact Option.noConfusion hc
    | cons a rest => exact Option.noConfusion hcall
  | succ fuel ih =>
    intro orig h roots h' rs hcall
    cases roots with
    | nil =>
      have hp := Option.some.inj hcall
      have h1 : h = h' := congrArg Prod.fst hp
      have h2 : ([] : List Nat) = rs := congrArg Prod.snd hp
      subst h1; subst h2
      refine ⟨Nat.le_refl _, fun i _ => rfl, by simp, ?_⟩
      intro i c hi hc
      rw [List.getElem?_eq_none_iff.mpr hi] at hc
      exact Option.noConfusion hc
    | cons a rest =>
      simp only [deepCopyMany] at hcall
      cases horig : orig[a]? with
      | none =>
        rw [horig] at hcall
        exact Option.noConfusion hcall
      | some cell =>
        rw [horig] at hcall
        cases cell with
        | num v =>
          dsimp only at hcall
          cases hsub : deepCopyMany fuel orig (h ++ [HVal.num v]) rest with
          | none =>
            rw [hsub] at hcall
            exact Option.noConfusion hcall
          | some pr =>
            obtain ⟨h2, addrs⟩ := pr
            rw [hsub] at hcall
            have hp := Option.some.inj hcall
            have hh : h2 = h' := congrArg Prod.fst hp
            have hrs : h.length :: addrs = rs := congrArg Prod.snd hp
            rw [← hh, ← hrs]
            obtain ⟨s1, s2, s3, s4⟩ :=
              ih orig (h ++ [HVal.num v]) rest h2 addrs hsub
            have hlen : h.length + 1 ≤ h2.length := by
              simpa using s1
            refine ⟨Nat.le_of_succ_le hlen, ?_, ?_, ?_⟩
            · intro i hi
              rw [s2 i (by simp; omega)]
              exact List.getElem?_append_left hi
            · intro r hr
              rcases List.mem_cons.mp hr with hr | hr
              · subst hr
                exact ⟨Nat.le_refl _, Nat.lt_of_succ_le hlen⟩
              · obtain ⟨hr1, hr2⟩ := s3 r hr
                refine ⟨?_, hr2⟩
                simp at hr1
                omega
            · intro i c hi hc
              by_cases hcase : i < h.length + 1
              · have hieq : i = h.length := by omega
                subst hieq
                rw [s2 h.length (by simp)] at hc
                rw [List.getElem?_concat_length] at hc
                have : HVal.num v = c := Option.some.inj hc
                subst this
                simp [HVal.refs]
              · have hge : (h ++ [HVal.num v]).length ≤ i := by
                  simp; omega
                intro b hb
                obtain ⟨hb1, hb2⟩ := s4 i c hge hc b hb
                refine ⟨?_, hb2⟩
                simp at hb1
                omega
        | arr es =>
          dsimp only at hcall
          cases hsub1 : deepCopyMany fuel orig h es with
          | none =>
            rw [hsub1] at hcall
            exact Option.noConfusion hcall
          | some pr1 =>
            obtain ⟨h1, childAddrs⟩ := pr1
            rw [hsub1] at hcall
            dsimp only at hcall
            cases hsub2 : deepCopyMany fuel orig
                (h1 ++ [HVal.arr childAddrs]) rest with
            | none =>
              rw [hsub2] at hcall
              exact Option.noConfusion hcall
            | some pr2 =>
              obtain ⟨h2, addrs⟩ := pr2
              rw [hsub2] at hcall
              have hp := Option.some.inj hcall
              have hh : h2 = h' := congrArg Prod.fst hp
              have hrs : h1.length :: addrs = rs := congrArg Prod.snd hp
              rw [← hh, ← hrs]
              obtain ⟨t1, t2, t3, t4⟩ := ih orig h es h1 childAddrs hsub1
              obtain ⟨u1, u2, u3, u4⟩ := ih orig (h1 ++ [HVal.arr childAddrs])
                rest h2 addrs hsub2
              have hlen1 : h1.length + 1 ≤ h2.length := by
                simpa using u1
              refine ⟨by omega, ?_, ?_, ?_⟩
              · intro i hi
                rw [u2 i (by simp; omega)]
                rw [List.getElem?_append_left (by omega)]
                exact t2 i hi
              · intro r hr
                rcases List.mem_cons.mp hr with hr | hr
                · subst hr
                  exact ⟨t1, by omega⟩
                · obtain ⟨hr1, hr2⟩ := u3 r hr
                  refine ⟨?_, hr2⟩
                  simp at hr1
                  omega
              · intro i c hi hc
                by_cases hcase : i < h1.length + 1
                · have hc' : (h1 ++ [HVal.arr childAddrs])[i]? = some c := by
                    rw [← u2 i (by simp; omega)]
                    exact hc
                  by_cases hcase2 : i < h1.length
                  · rw [List.getElem?_append_left hcase2] at hc'
                    intro b hb
                    obtain ⟨hb1, hb2⟩ := t4 i c hi hc' b hb
                    exact ⟨hb1, by omega⟩
                  · have hieq : i = h1.length := by omega
                    subst hieq
                    rw [List.getElem?_concat_length] at hc'
                    have : HVal.arr childAddrs = c := Option.some.inj hc'
                    subst this
                    intro b hb
                    obtain ⟨hb1, hb2⟩ := t3 b hb
                    exact ⟨hb1, by omega⟩
                · have hge : (h1 ++ [HVal.arr childAddrs]).length ≤ i := by
                    simp; omega
                  intro b hb
                  obtain ⟨hb1, hb2⟩ := u4 i c hge hc b hb
                  refine ⟨?_, hb2⟩
                  simp at hb1
                  omega

theorem heapFilter_spec (fuel : Nat) (h : Heap) (root : Nat) (cutoff : Int)
    (h' : Heap) (r : Nat)
    (hc : heapFilterToCutoff fuel h root cutoff = some (h', r)) :
    h.length ≤ r ∧ r < h'.length ∧
    (∀ i, i < h.length → h'[i]? = h[i]?) ∧
    (∀ i c, h.length ≤ i → h'[i]? = some c →
      ∀ b ∈ c.refs, h.length ≤ b ∧ b < h'.length) := by
  unfold heapFilterToCutoff at hc
  cases hroot : h[root]? with
  | none =>
    rw [hroot] at hc
    exact Option.noConfusion hc
  | some cell =>
    rw [hroot] at hc
    cases cell with
    | num v => exact Option.noConfusion hc
    | arr periodAddrs =>
      dsimp only at hc
      cases hdc : deepCopyMany fuel h h (periodAddrs.filter (fun a =>
          match heapPubDate h a with
          | some d => decide (d ≤ cutoff)
          | none => false)) with
      | none =>
        rw [hdc] at hc
        exact Option.noConfusion hc
      | some pr =>
        obtain ⟨h1, addrs⟩ := pr
        rw [hdc] at hc
        have hp := Option.some.inj hc
        have hh : h1 ++ [HVal.arr addrs] = h' := congrArg Prod.fst hp
        have hr : h1.length = r := congrArg Prod.snd hp
        obtain ⟨s1, s2, s3, s4⟩ := deepCopyMany_spec fuel h h _ h1 addrs hdc
        rw [← hh, ← hr]
        have hlen : h1.length + 1 = (h1 ++ [HVal.arr addrs]).length := by simp
        refine ⟨s1, by omega, ?_, ?_⟩
        · intro i hi
          rw [List.getElem?_append_left (by omega)]
          exact s2 i hi
        · intro i c hi hcell
          by_cases hcase : i < h1.length
          · rw [List.getElem?_append_left hcase] at hcell
            intro b hb
            obtain ⟨hb1, hb2⟩ := s4 i c hi hcell b hb
            exact ⟨hb1, by omega⟩
          · by_cases hcase2 : i = h1.length
            · subst hcase2
              rw [List.getElem?_concat_length] at hcell
              have : HVal.arr addrs = c := Option.some.inj hcell
              subst this
              intro b hb
              obtain ⟨hb1, hb2⟩ := s3 b hb
              exact ⟨hb1, by omega⟩
            · exfalso
              have : (h1 ++ [HVal.arr addrs]).length ≤ i := by simp; omega
              rw [List.getElem?_eq_none_iff.mpr this] at hcell
              exact Option.noConfusion hcell

/-- Claim C8: the payload produced by the filter is a deep, independent
copy — producing it leaves every source cell unchanged, the copy lives
entirely in fresh cells which reference only fresh cells, mutating any
cell of the copy never changes any source cell, and mutating any cell of
a later copy never changes an earlier one. -/
theorem claim_C8_deep_independent_copy :
    ∀ (fuel : Nat) (h : Heap) (root : Nat) (cutoff : Int) (h' : Heap)
      (r : Nat),
      heapFilterToCutoff fuel h root cutoff = some (h', r) →
      (∀ i, i < h.length → h'[i]? = h[i]?) ∧
      (h.length ≤ r ∧ r < h'.length) ∧
      (∀ i c, h.length ≤ i → h'[i]? = some c →
        ∀ b ∈ c.refs, h.length ≤ b ∧ b < h'.length) ∧
      (∀ b v i, h.length ≤ b → i < h.length →
        (h'.set b v)[i]? = h[i]?) ∧
      (∀ fuel2 root2 cutoff2 h2 r2,
        heapFilterToCutoff fuel2 h' root2 cutoff2 = some (h2, r2) →
        ∀ b v i, h'.length ≤ b → i < h'.length →
          (h2.set b v)[i]? = h'[i]?) := by
  intro fuel h root cutoff h' r hc
  obtain ⟨p1, p2, p3, p4⟩ := heapFilter_spec fuel h root cutoff h' r hc
  refine ⟨p3, ⟨p1, p2⟩, p4, ?_, ?_⟩
  · intro b v i hb hi
    rw [List.getElem?_set_ne (by omega)]
    exact p3 i hi
  · intro fuel2 root2 cutoff2 h2 r2 hc2 b v i hb hi
    obtain ⟨q1, q2, q3, q4⟩ :=
      heapFilter_spec fuel2 h' root2 cutoff2 h2 r2 hc2
    rw [List.getElem?_set_ne (by omega)]
    exact q3 i hi

/-- Witness for claim C8 at a concrete input: filtering the example heap
at cutoff 10 keeps only the day-5 period and copies it into fresh cells;
overwriting the fresh date cell 5 leaves the source period node at cell 1
unchanged, and building the copy left source cell 0 unchanged. -/
theorem claim_C8_witness :
    ((exH8Copy.set 5 (HVal.num 99))[1]? = exH8[1]?) ∧
    exH8Copy[0]? = exH8[0]? := by
  have h := claim_C8_deep_independent_copy 10 exH8 4 10 exH8Copy 7 (by decide)
  exact ⟨h.2.2.2.1 5 (HVal.num 99) 1 (by decide) (by decide),
    h.1 0 (by decide)⟩

end PIT

namespace Dash

theorem get_set (st : PipelineStatus) (j : Job) (v : JobStatus) (j' : Job) :
    (st.set j v).get j' = if j' = j then v else st.get j' := by
  cases j <;> cases j' <;>
    simp [PipelineStatus.get, PipelineStatus.set]

theorem dashExec_append (es : List DashEvent) (ev : DashEvent) :
    dashExec (es ++ [ev]) = dashStep (dashExec es) ev := by
  simp [dashExec, dashExecFrom, List.foldl_append]

theorem isKeySet_step (s : DashState) (ev : DashEvent)
    (h : s.isKeySet = true) : (dashStep s ev).isKeySet = true := by
  cases ev with
  | setKey => rfl
  | click j =>
    simp only [dashStep]
    split
    · exact h
    · exact h
  | resolve i coin =>
    simp only [dashStep]
    split
    · exact h
    · exact h

theorem isKeySet_from (s : DashState) (es : List DashEvent)
    (h : s.isKeySet = true) : (dashExecFrom s es).isKeySet = true := by
  induction es generalizing s with
  | nil => exact h
  | cons ev rest ih => exact ih (dashStep s ev) (isKeySet_step s ev h)

theorem dashExec_split (es : List DashEvent) (n : Nat) :
    dashExec es = dashExecFrom (dashExec (es.take n)) (es.drop n) := by
  unfold dashExec dashExecFrom
  rw [← List.foldl_append, List.take_append_drop]

theorem key_from_prefix (es : List DashEvent) (n : Nat)
    (h : (dashExec (es.take n)).isKeySet = true) :
    (dashExec es).isKeySet = true := by
  rw [dashExec_split es n]
  exact isKeySet_from _ _ h

theorem pending_snapshot_prefix :
    ∀ es : List DashEvent, ∀ e ∈ (dashExec es).pendingRuns,
      ∃ n, n ≤ es.length ∧
        e.statusSnapshot = (dashExec (es.take n)).status ∧
        e.keySnapshot = (dashExec (es.take n)).isKeySet := by
  intro es
  induction es using List.reverseRecOn with
  | nil =>
    intro e he
    exact absurd he (by simp [dashExec, dashExecFrom, initialState])
  | append_singleton es ev ih =>
    intro e he
    rw [dashExec_append] at he
    have lift : (∃ n, n ≤ es.length ∧
        e.statusSnapshot = (dashExec (es.take n)).status ∧
        e.keySnapshot = (dashExec (es.take n)).isKeySet) →
        ∃ n, n ≤ (es ++ [ev]).length ∧
          e.statusSnapshot = (dashExec ((es ++ [ev]).take n)).status ∧
          e.keySnapshot = (dashExec ((es ++ [ev]).take n)).isKeySet := by
      rintro ⟨n, hn, h1, h2⟩
      refine ⟨n, by simp; omega, ?_, ?_⟩ <;>
        rw [List.take_append_of_le_length hn]
      · exact h1
      · exact h2
    cases ev with
    | setKey => exact lift (ih e he)
    | click j =>
      by_cases hd : runDisabled (dashExec es).isKeySet (dashExec es).status j
          = true
      · have hs : dashStep (dashExec es) (DashEvent.click j) = dashExec es := by
          simp [dashStep, hd]
        rw [hs] at he
        exact lift (ih e he)
      · have hd' : runDisabled (dashExec es).isKeySet (dashExec es).status j
            = false := Bool.eq_false_iff.mpr hd
        have hstep : (dashStep (dashExec es) (DashEvent.click j)).pendingRuns
            = (dashExec es).pendingRuns ++
              [⟨j, (dashExec es).isKeySet, (dashExec es).status⟩] := by
          simp [dashStep, hd']
        rw [hstep] at he
        rcases List.mem_append.mp he with hmem | hmem
        · exact lift (ih e hmem)
        · have hee : e = ⟨j, (dashExec es).isKeySet, (dashExec es).status⟩ :=
            List.mem_singleton.mp hmem
          refine ⟨es.length, by simp, ?_, ?_⟩ <;> rw [List.take_left, hee]
    | resolve i coin =>
      cases hp : (dashExec es).pendingRuns[i]? with
      | none =>
        have hs : dashStep (dashExec es) (DashEvent.resolve i coin)
            = dashExec es := by
          simp [dashStep, hp]
        rw [hs] at he
        exact lift (ih e he)
      | some e0 =>
        have hstep :
            (dashStep (dashExec es) (DashEvent.resolve i coin)).pendingRuns
              = (dashExec es).pendingRuns.eraseIdx i := by
          simp [dashStep, hp]
        rw [hstep] at he
        exact lift (ih e (List.mem_of_mem_eraseIdx he))

theorem resolve_step_requires (s : DashState) (i : Nat) (coin : Bool)
    (e : PendingRun) (hp : s.pendingRuns[i]? = some e)
    (h : (dashStep s (DashEvent.resolve i coin)).status.get e.job
      = JobStatus.completed) :
    (e.job = Job.ingest → e.keySnapshot = true) ∧
    (e.job = Job.train → e.statusSnapshot.ingest = JobStatus.completed) ∧
    (e.job = Job.backtest → e.statusSnapshot.train = JobStatus.completed) ∧
    (e.job = Job.report → e.statusSnapshot.backtest = JobStatus.completed) := by
  have hst : (dashStep s (DashEvent.resolve i coin)).status
      = s.status.set e.job
          (if resolveSuccess e coin then JobStatus.completed
           else JobStatus.failed) := by
    simp [dashStep, hp]
  rw [hst, get_set, if_pos rfl] at h
  by_cases hsucc : resolveSuccess e coin = true
  · unfold resolveSuccess at hsucc
    refine ⟨?_, ?_, ?_, ?_⟩ <;> intro hj <;> simp only [hj] at hsucc
    · exact hsucc
    · exact of_decide_eq_true (Bool.and_elim_left hsucc)
    · exact of_decide_eq_true hsucc
    · exact of_decide_eq_true hsucc
  · rw [if_neg hsucc] at h
    exact absurd h (by decide)

theorem job_history :
    ∀ es : List DashEvent,
      ((dashExec es).status.get Job.ingest = JobStatus.completed →
        (dashExec es).isKeySet = true) ∧
      ((dashExec es).status.get Job.train = JobStatus.completed →
        ∃ n, n ≤ es.length ∧
          (dashExec (es.take n)).status.get Job.ingest = JobStatus.completed) ∧
      ((dashExec es).status.get Job.backtest = JobStatus.completed →
        ∃ n, n ≤ es.length ∧
          (dashExec (es.take n)).status.get Job.train = JobStatus.completed) ∧
      ((dashExec es).status.get Job.report = JobStatus.completed →
        ∃ n, n ≤ es.length ∧
          (dashExec (es.take n)).status.get Job.backtest
            = JobStatus.completed) := by
  intro es
  induction es using List.reverseRecOn with
  | nil =>
    refine ⟨?_, ?_, ?_, ?_⟩ <;> intro h <;> exact absurd h (by decide)
  | append_singleton es ev ih =>
    have liftH : ∀ j : Job,
        (∃ n, n ≤ es.length ∧
          (dashExec (es.take n)).status.get j = JobStatus.completed) →
        ∃ n, n ≤ (es ++ [ev]).length ∧
          (dashExec ((es ++ [ev]).take n)).status.get j
            = JobStatus.completed := by
      rintro j ⟨n, hn, hc⟩
      refine ⟨n, by simp; omega, ?_⟩
      rw [List.take_append_of_le_length hn]
      exact hc
    have nowH : ∀ j : Job, (dashExec es).status.get j = JobStatus.completed →
        ∃ n, n ≤ (es ++ [ev]).length ∧
          (dashExec ((es ++ [ev]).take n)).status.get j
            = JobStatus.completed := by
      intro j hc
      refine ⟨es.length, by simp, ?_⟩
      rw [List.take_left]
      exact hc
    rw [dashExec_append]
    cases ev with
    | setKey =>
      refine ⟨fun _ => rfl, ?_, ?_, ?_⟩
      · intro h; exact liftH _ (ih.2.1 h)
      · intro h; exact liftH _ (ih.2.2.1 h)
      · intro h; exact liftH _ (ih.2.2.2 h)
    | click j =>
      by_cases hd : runDisabled (dashExec es).isKeySet (dashExec es).status j
          = true
      · have hs : dashStep (dashExec es) (DashEvent.click j) = dashExec es := by
          simp [dashStep, hd]
        rw [hs]
        exact ⟨ih.1, fun h => liftH _ (ih.2.1 h),
          fun h => liftH _ (ih.2.2.1 h), fun h => liftH _ (ih.2.2.2 h)⟩
      · have hd' : runDisabled (dashExec es).isKeySet (dashExec es).status j
            = false := Bool.eq_false_iff.mpr hd
        have hst : (dashStep (dashExec es) (DashEvent.click j)).status
            = (dashExec es).status.set j JobStatus.running := by
          simp [dashStep, hd']
        have hk : (dashStep (dashExec es) (DashEvent.click j)).isKeySet
            = (dashExec es).isKeySet := by
          simp [dashStep, hd']
        refine ⟨?_, ?_, ?_, ?_⟩
        · intro h
          rw [hst, get_set] at h
          by_cases hj : Job.ingest = j
          · rw [if_pos hj] at h
            exact absurd h (by decide)
          · rw [if_neg hj] at h
            rw [hk]
            exact ih.1 h
        · intro h
          rw [hst, get_set] at h
          by_cases hj : Job.train = j
          · rw [if_pos hj] at h
            exact absurd h (by decide)
          · rw [if_neg hj] at h
            exact liftH _ (ih.2.1 h)
        · intro h
          rw [hst, get_set] at h
          by_cases hj : Job.backtest = j
          · rw [if_pos hj] at h
            exact absurd h (by decide)
          · rw [if_neg hj] at h
            exact liftH _ (ih.2.2.1 h)
        · intro h
          rw [hst, get_set] at h
          by_cases hj : Job.report = j
          · rw [if_pos hj] at h
            exact absurd h (by decide)
          · rw [if_neg hj] at h
            exact liftH _ (ih.2.2.2 h)
    | resolve i coin =>
      cases hp : (dashExec es).pendingRuns[i]? with
      | none =>
        have hs : dashStep (dashExec es) (DashEvent.resolve i coin)
            = dashExec es := by
          simp [dashStep, hp]
        rw [hs]
        exact ⟨ih.1, fun h => liftH _ (ih.2.1 h),
          fun h => liftH _ (ih.2.2.1 h), fun h => liftH _ (ih.2.2.2 h)⟩
      | some e0 =>
        have hreq := fun h =>
          resolve_step_requires (dashExec es) i coin e0 hp h
        have hst : (dashStep (dashExec es) (DashEvent.resolve i coin)).status
            = (dashExec es).status.set e0.job
                (if resolveSuccess e0 coin then JobStatus.completed
                 else JobStatus.failed) := by
          simp [dashStep, hp]
        have hk : (dashStep (dashExec es) (DashEvent.resolve i coin)).isKeySet
            = (dashExec es).isKeySet := by
          simp [dashStep, hp]
        obtain ⟨n0, hn0, hsnap, hkey⟩ :=
          pending_snapshot_prefix es e0 (List.getElem?_mem hp)
        refine ⟨?_, ?_, ?_, ?_⟩
        · intro h
          rw [hst, get_set] at h
          by_cases hj : Job.ingest = e0.job
          · rw [if_pos hj] at h
            by_cases hsucc : resolveSuccess e0 coin = true
            · have hks : e0.keySnapshot = true := by
                unfold resolveSuccess at hsucc
                rw [← hj] at hsucc
                exact hsucc
              rw [hkey] at hks
              rw [hk]
              exact key_from_prefix es n0 hks
            · rw [if_neg hsucc] at h
              exact absurd h (by decide)
          · rw [if_neg hj] at h
            rw [hk]
            exact ih.1 h
        · intro h
          rw [hst, get_set] at h
          by_cases hj : Job.train = e0.job
          · rw [if_pos hj] at h
            by_cases hsucc : resolveSuccess e0 coin = true
            · have hss : e0.statusSnapshot.ingest = JobStatus.completed := by
                unfold resolveSuccess at hsucc
                rw [← hj] at hsucc
                exact of_decide_eq_true (Bool.and_elim_left hsucc)
              refine ⟨n0, by simp; omega, ?_⟩
              rw [List.take_append_of_le_length hn0, ← hsnap]
              exact hss
            · rw [if_neg hsucc] at h
              exact absurd h (by decide)
          · rw [if_neg hj] at h
            exact liftH _ (ih.2.1 h)
        · intro h
          rw [hst, get_set] at h
          by_cases hj : Job.backtest = e0.job
          · rw [if_pos hj] at h
            by_cases hsucc : resolveSuccess e0 coin = true
            · have hss : e0.statusSnapshot.train = JobStatus.completed := by
                unfold resolveSuccess at hsucc
                rw [← hj] at hsucc
                exact of_decide_eq_true hsucc
              refine ⟨n0, by simp; omega, ?_⟩
              rw [List.take_append_of_le_length hn0, ← hsnap]
              exact hss
            · rw [if_neg hsucc] at h
              exact absurd h (by decide)
          · rw [if_neg hj] at h
            exact liftH _ (ih.2.2.1 h)
        · intro h
          rw [hst, get_set] at h
          by_cases hj : Job.report = e0.job
          · rw [if_pos hj] at h
            by_cases hsucc : resolveSuccess e0 coin = true
            · have hss : e0.statusSnapshot.backtest = JobStatus.completed := by
                unfold resolveSuccess at hsucc
                rw [← hj] at hsucc
                exact of_decide_eq_true hsucc
              refine ⟨n0, by simp; omega, ?_⟩
              rw [List.take_append_of_le_length hn0, ← hsnap]
              exact hss
            · rw [if_neg hsucc] at h
              exact absurd h (by decide)
          · rw [if_neg hj] at h
            exact liftH _ (ih.2.2.2 h)

/-- Claim C10, amended: in the dashboard pipeline state machine, a resolve
of a pending run can set its job's status to completed only if the success
condition held on the click-time snapshot the timeout callback closed
over — the preceding job's status was completed (the API key was set, for
ingest) when the run was started; every pending run's snapshot is the
state of some prefix of the trace; if ingest is completed the key is set;
and report is completed only if ingest, train and backtest were each
completed at some earlier point of the trace. -/
theorem claim_C10_pipeline_sequencing :
    ∀ es : List DashEvent,
      (∀ (i : Nat) (coin : Bool) (e : PendingRun),
        (dashExec es).pendingRuns[i]? = some e →
        (dashStep (dashExec es) (DashEvent.resolve i coin)).status.get e.job
          = JobStatus.completed →
        (e.job = Job.ingest → e.keySnapshot = true) ∧
        (e.job = Job.train →
          e.statusSnapshot.ingest = JobStatus.completed) ∧
        (e.job = Job.backtest →
          e.statusSnapshot.train = JobStatus.completed) ∧
        (e.job = Job.report →
          e.statusSnapshot.backtest = JobStatus.completed)) ∧
      (∀ e ∈ (dashExec es).pendingRuns,
        ∃ n, n ≤ es.length ∧
          e.statusSnapshot = (dashExec (es.take n)).status ∧
          e.keySnapshot = (dashExec (es.take n)).isKeySet) ∧
      ((dashExec es).status.get Job.ingest = JobStatus.completed →
        (dashExec es).isKeySet = true) ∧
      ((dashExec es).status.get Job.report = JobStatus.completed →
        ∃ a b c,
          (dashExec (es.take a)).status.get Job.ingest
            = JobStatus.completed ∧
          (dashExec (es.take b)).status.get Job.train
            = JobStatus.completed ∧
          (dashExec (es.take c)).status.get Job.backtest
            = JobStatus.completed) := by
  intro es
  refine ⟨fun i coin e hp h => resolve_step_requires (dashExec es) i coin e hp h,
    pending_snapshot_prefix es, (job_history es).1, ?_⟩
  intro h
  obtain ⟨c, hc, hcc⟩ := (job_history es).2.2.2 h
  obtain ⟨b, hb, hbc⟩ := (job_history (es.take c)).2.2.1 hcc
  obtain ⟨a, ha, hac⟩ := (job_history ((es.take c).take b)).2.1 hbc
  refine ⟨min a (min b c), min b c, c, ?_, ?_, hcc⟩
  · rw [← List.take_take, ← List.take_take]
    exact hac
  · rw [← List.take_take]
    exact hbc

/-- Counterexample to claim C10 as stated: after the key is set, ingest
runs to completed, a train run is started, and ingest is clicked again,
the pending train run resolves to completed from its click-time snapshot
while ingest's status is running — not completed — at the moment the run
resolves (the final event of the trace is that resolve). -/
theorem claim_C10_counterexample :
    cexTrace = cexTrace.take 5 ++ [DashEvent.resolve 0 true] ∧
    (dashExec (cexTrace.take 5)).status.get Job.ingest = JobStatus.running ∧
    (dashExec (cexTrace.take 5)).status.get Job.train = JobStatus.running ∧
    (dashExec cexTrace).status.get Job.train = JobStatus.completed ∧
    (dashExec cexTrace).status.get Job.ingest = JobStatus.running := by
  decide

/-- Witness for the amended claim C10 at a concrete input: on the full
successful pipeline trace, ingest is completed, so the API key is set. -/
theorem claim_C10_witness : (dashExec okTrace).isKeySet = true :=
  (claim_C10_pipeline_sequencing okTrace).2.2.1 (by decide)

end Dash
